import Mathlib

/-!
# Verification of `examples/graph_prediction/ogbg-mol-hiv_disjoint.py`

A shallow embedding of the Spektral OGB `mol-hiv` example script.  The
script is linear glue code: module-level constants, a data-loading and
splitting phase, model construction, a training loop that averages and
prints the loss once per epoch, and an evaluation loop that collects
targets and predictions batch by batch and finally prints a test loss and
a ROC-AUC score.

Scalar arithmetic of the script (loss accumulation, averaging, the
metric) is embedded over `ℚ`, treating the framework's floating point
arithmetic as exact.  Library components whose source is not part of the
repository snapshot (the `DisjointLoader` batching, the OGB evaluator's
ROC-AUC metric) are modelled from the specification, as documented on the
corresponding definitions.
-/

namespace OgbgMolHiv

/-! ## Module-level parameters (script lines 24-30) -/

/-- Constant `learning_rate = 1e-3` (script line 24). -/
def learning_rate : ℚ := 1 / 1000

/-- Constant `epochs = 10` (script line 25). -/
def epochs : Nat := 10

/-- Constant `batch_size = 32` (script line 26). -/
def batch_size : Nat := 32

/-- Constant `dataset_name = 'ogbg-molhiv'` (script line 30). -/
def dataset_name : String := "ogbg-molhiv"

/-! ## Data model: labeled molecular graphs -/

/-- A labeled graph as the dataset delivers it: a number of nodes, a sparse
adjacency given as an edge list (node features and edge features are
irrelevant to the claims and are abstracted away), and a graph-level
label. -/
structure SGraph where
  n : Nat
  edges : List (Nat × Nat)
  label : ℚ
deriving DecidableEq, Repr

/-- Well-formedness: all edge endpoints are valid node indices. -/
def SGraph.WF (g : SGraph) : Prop := ∀ e ∈ g.edges, e.1 < g.n ∧ e.2 < g.n

instance (g : SGraph) : Decidable g.WF := by
  unfold SGraph.WF; infer_instance

/-! ## Disjoint-mode batching

Modelled from the spec: "a batch of such graphs disjointly unioned into a
single block-diagonal adjacency with an index vector assigning nodes to
graphs".  The `DisjointLoader` source is not part of the snapshot, so the
batching is reconstructed from that sentence: the dataset is cut into
consecutive batches of at most `batch_size` graphs, for `epochs` passes. -/

/-- Fuel-indexed chunking: cut a list into consecutive pieces of `b + 1`
elements (the last may be shorter).  The fuel bounds the recursion; any
fuel of at least the list's length gives the full chunking. -/
def chunkFuel (b : Nat) : Nat → List α → List (List α)
  | 0, _ => []
  | _ + 1, [] => []
  | fuel + 1, x :: xs => (x :: xs.take b) :: chunkFuel b fuel (xs.drop b)

/-- Modelled from the spec: one epoch of `DisjointLoader` batching — the
dataset cut into consecutive batches of at most `b` graphs. -/
def chunk (b : Nat) (l : List α) : List (List α) := chunkFuel (b - 1) l.length l

/-- Modelled from the spec: the full batch stream of
`DisjointLoader(dataset, batch_size=b, epochs=ep)` — `ep` passes over the
per-epoch batches. -/
def loaderBatches (b ep : Nat) (ds : List α) : List (List α) :=
  (List.replicate ep (chunk b ds)).flatten

/-- The number of batches in one pass (`loader.steps_per_epoch`). -/
def steps_per_epoch (b : Nat) (ds : List α) : Nat := (chunk b ds).length

/-- Modelled from the spec: the edge list of the block-diagonal adjacency
of a disjoint union of graphs; the edges of graph `k` are shifted by the
total node count of the preceding graphs. -/
def unionEdges : List SGraph → List (Nat × Nat)
  | [] => []
  | g :: gs => g.edges ++ (unionEdges gs).map (fun e => (e.1 + g.n, e.2 + g.n))

/-- Modelled from the spec: the index vector (the `I` model input)
assigning each node of the disjoint union to the graph it came from. -/
def indexVec : List SGraph → List Nat
  | [] => []
  | g :: gs => List.replicate g.n 0 ++ (indexVec gs).map (· + 1)

/-- Node offset of the `k`-th graph inside the disjoint union. -/
def offset : List SGraph → Nat → Nat
  | [], _ => 0
  | _ :: _, 0 => 0
  | g :: gs, k + 1 => g.n + offset gs k

/-! ## The training loop (script lines 89-99) -/

/-- The loop state: the loss accumulator `model_loss`, the batch counter
`current_batch`, and the list of loss values printed so far. -/
structure TrainState where
  model_loss : ℚ
  current_batch : Nat
  printed : List ℚ
deriving DecidableEq, Repr

/-- One iteration of the training loop body: accumulate the loss returned
by `train_step`, increment the counter, and on reaching
`steps_per_epoch` print the average and reset both to zero. -/
def trainBody (spe : Nat) (s : TrainState) (loss : ℚ) : TrainState :=
  let model_loss := s.model_loss + loss
  let current_batch := s.current_batch + 1
  if current_batch = spe then
    { model_loss := 0, current_batch := 0,
      printed := s.printed ++ [model_loss / (spe : ℚ)] }
  else
    { model_loss := model_loss, current_batch := current_batch,
      printed := s.printed }

/-- The training loop folded over the per-batch losses returned by
`train_step`, starting from `model_loss = 0`, `current_batch = 0`. -/
def trainLoop (spe : Nat) (losses : List ℚ) : TrainState :=
  losses.foldl (trainBody spe) ⟨0, 0, []⟩

/-- The fitting phase: fold `train_step` over the batch stream, threading
the trainable variables `w` and collecting the per-batch losses. -/
def fitModel {W β : Type} (step : W → β → W × ℚ) (w : W) (batches : List β) :
    W × List ℚ :=
  batches.foldl (fun s b => ((step s.1 b).1, s.2 ++ [(step s.1 b).2])) (w, [])

/-! ## The evaluation loop (script lines 104-112) -/

/-- The evaluation loop state: the trainable variables (never written by
the loop) and the collected target and prediction blocks. -/
structure EvalState (W : Type) where
  weights : W
  y_true : List (List ℚ)
  y_pred : List (List ℚ)

/-- One iteration of the evaluation loop body: call the model on the
batch with `training := false` and append one target block and one
prediction block.  `mdl w training g` is the graph-level output of the
disjoint-mode model for graph `g` of the batch. -/
def evalBody {W : Type} (mdl : W → Bool → SGraph → ℚ) (s : EvalState W)
    (batch : List SGraph) : EvalState W :=
  { weights := s.weights,
    y_true := s.y_true ++ [batch.map SGraph.label],
    y_pred := s.y_pred ++ [batch.map (mdl s.weights false)] }

/-- The evaluation loop folded over the test batches. -/
def evalLoop {W : Type} (mdl : W → Bool → SGraph → ℚ) (w : W)
    (batches : List (List SGraph)) : EvalState W :=
  batches.foldl (evalBody mdl) ⟨w, [], []⟩

/-! ## The ROC-AUC metric (script lines 104, 117) -/

/-- Modelled from the spec: "ROC-AUC: Area under the receiver operating
characteristic curve, a binary classification quality metric", computed
by the external OGB `Evaluator`.  For binary labels it equals the
probability that a uniformly random positive example is scored above a
uniformly random negative one, ties counting one half. -/
def rocauc (y_true y_pred : List ℚ) : ℚ :=
  let pairs := y_true.zip y_pred
  let pos := (pairs.filter (fun t => decide (t.1 = 1))).map Prod.snd
  let neg := (pairs.filter (fun t => decide (t.1 = 0))).map Prod.snd
  let conc := (pos.map (fun p => neg.countP (fun q => decide (q < p)))).sum
  let ties := (pos.map (fun p => neg.countP (fun q => decide (q = p)))).sum
  ((2 * conc + ties : Nat) : ℚ) / ((2 * pos.length * neg.length : Nat) : ℚ)

/-! ## The whole script as a function of its split datasets -/

/-- The printed outputs of the script: the per-epoch training losses, the
final test loss and the final ROC-AUC score. -/
structure ScriptOut where
  epochPrints : List ℚ
  testLoss : ℚ
  testAuc : ℚ

/-- The script run end to end, abstracted over the framework pieces:
`step` is `train_step` (one gradient update returning the new variables
and the loss), `mdl` the model forward pass, `lossFn` the
`BinaryCrossentropy` loss on stacked arrays, `w0` the freshly built
model's variables.  `tr`, `va`, `te` are the three dataset splits.  The
validation split is bound, as in the script, and used by nothing. -/
def runScript {W : Type} (step : W → List SGraph → W × ℚ)
    (mdl : W → Bool → SGraph → ℚ) (lossFn : List ℚ → List ℚ → ℚ)
    (w0 : W) (tr va te : List SGraph) : W × ScriptOut :=
  let dataset_tr := tr
  let dataset_va := va
  let dataset_te := te
  let loader_tr := loaderBatches batch_size epochs dataset_tr
  let spe := steps_per_epoch batch_size dataset_tr
  let fitted := fitModel step w0 loader_tr
  let tstate := trainLoop spe fitted.2
  let loader_te := chunk batch_size dataset_te
  let est := evalLoop mdl fitted.1 loader_te
  let yt := est.y_true.flatten
  let yp := est.y_pred.flatten
  (est.weights,
    { epochPrints := tstate.printed, testLoss := lossFn yt yp,
      testAuc := rocauc yt yp })

/-! ## The script as a linear trace of events

The script is straight-line code; its control flow is embedded as the
list of externally visible events it performs, in program order. -/

/-- The four module-level constants the script assigns. -/
inductive ParamName
  | lr
  | numEpochs
  | batchSize
  | datasetName
deriving DecidableEq, Repr

/-- The events of the script, in the vocabulary of the claims.  The
`fileOperation` constructor exists so that "the script performs no file
operation" is statable; the trace below never emits it. -/
inductive Event
  | setParam (p : ParamName)
  | loadDataset (name : String)
  | splitData
  | buildModel
  | printStatus (msg : String)
  | trainStepCall (i : Nat)
  | printEpochLoss (v : ℚ)
  | evalForward (i : Nat)
  | printFinal (testLoss auc : ℚ)
  | fileOperation (path : String)
deriving DecidableEq, Repr

/-- The configure phase: the three hyperparameter assignments
(script lines 24-26). -/
def configEvents : List Event :=
  [.setParam .lr, .setParam .numEpochs, .setParam .batchSize]

/-- The training loop's events: for each of the `ep` epochs, the
`spe` consecutive `train_step` calls followed by the epoch's loss print
(script lines 91-99).  `avg e` is the value printed after epoch `e`. -/
def trainEvents (ep spe : Nat) (avg : Nat → ℚ) : List Event :=
  ((List.range ep).map (fun e =>
    (List.range spe).map (fun s => Event.trainStepCall (e * spe + s)) ++
      [Event.printEpochLoss (avg e)])).flatten

/-- The evaluation loop's events: one forward pass per test batch
(script lines 107-112). -/
def evalEvents (nte : Nat) : List Event :=
  (List.range nte).map Event.evalForward

/-- The full trace of the script, in program order: the parameter
assignments, the dataset-name assignment, dataset loading and
splitting, model construction, the `Fitting model` status line, the
training loop, the `Testing model` status line, the evaluation loop,
and the final results line.  `ep` epochs of `spe` training steps,
`nte` test batches. -/
def scriptTrace (ep spe nte : Nat) (avg : Nat → ℚ) (tl auc : ℚ) : List Event :=
  configEvents ++
  [.setParam .datasetName, .loadDataset dataset_name, .splitData] ++
  [.buildModel] ++
  [.printStatus ("Fitting model")] ++
  trainEvents ep spe avg ++
  [.printStatus ("Testing model")] ++
  evalEvents nte ++
  [.printFinal tl auc]

/-- The phase an event belongs to (configure = 0, load/split = 1,
build = 2, train = 3, evaluate = 4); used to show the trace runs the
phases in a fixed linear order. -/
def phaseTag : Event → Nat
  | .setParam _ => 0
  | .loadDataset _ => 1
  | .splitData => 1
  | .buildModel => 2
  | .printStatus m => if m = "Fitting model" then 3 else 4
  | .trainStepCall _ => 3
  | .printEpochLoss _ => 3
  | .evalForward _ => 4
  | .printFinal _ _ => 4
  | .fileOperation _ => 5

/-- Is the event a `train_step` call? -/
def isTrainStep : Event → Bool
  | .trainStepCall _ => true
  | _ => false

/-- Is the event an evaluation forward pass? -/
def isEvalForward : Event → Bool
  | .evalForward _ => true
  | _ => false

/-- Is the event a parameter assignment? -/
def isSetParam : Event → Bool
  | .setParam _ => true
  | _ => false

/-- Is the event a file open/write/delete? -/
def isFileOp : Event → Bool
  | .fileOperation _ => true
  | _ => false

/-- Is the event an output (something printed)? -/
def isOutput : Event → Bool
  | .printStatus _ => true
  | .printEpochLoss _ => true
  | .printFinal _ _ => true
  | _ => false

/-- Is the event a per-epoch training-loss print? -/
def isEpochLossPrint : Event → Bool
  | .printEpochLoss _ => true
  | _ => false

/-- Is the event the final test-loss/ROC-AUC print? -/
def isFinalPrint : Event → Bool
  | .printFinal _ _ => true
  | _ => false

/-! ## Error propagation (script lines 1-120)

The script contains no `try`/`except`: each phase is a bare library
call, so a failure in any phase aborts the whole run with that very
error.  The composition of the phases is embedded in the `Except`
monad. -/

/-- The script as a composition of fallible phases: dataset loading,
model construction, the training loop (graph convolutions and gradient
application), and the evaluation loop with its metric computation.
There is no handler anywhere: the phases are chained by plain `bind`. -/
def scriptPhases {ε δ μ ρ : Type} (load : Except ε δ) (build : δ → Except ε μ)
    (train : μ → Except ε μ) (evaluate : μ → Except ε ρ) : Except ε ρ :=
  load.bind fun d => (build d).bind fun m => (train m).bind fun m2 => evaluate m2

/-! ## Chunking lemmas -/

theorem chunkFuel_flatten {α : Type} (b : Nat) :
    ∀ (fuel : Nat) (l : List α), l.length ≤ fuel →
      (chunkFuel b fuel l).flatten = l := by
  intro fuel
  induction fuel with
  | zero =>
    intro l hl
    rw [List.length_eq_zero.mp (Nat.le_zero.mp hl)]
    rfl
  | succ fuel ih =>
    intro l hl
    cases l with
    | nil => rfl
    | cons x xs =>
      rw [chunkFuel, List.flatten_cons, ih (xs.drop b)]
      · simp [List.take_append_drop]
      · rw [List.length_drop]
        have := List.length_cons x xs ▸ hl
        omega

theorem chunk_flatten {α : Type} (b : Nat) (l : List α) :
    (chunk b l).flatten = l :=
  chunkFuel_flatten (b - 1) l.length l le_rfl

theorem length_le_of_mem_chunkFuel {α : Type} {b : Nat} :
    ∀ {fuel : Nat} {l c : List α}, c ∈ chunkFuel b fuel l → c.length ≤ b + 1 := by
  intro fuel
  induction fuel with
  | zero => intro l c hc; simp [chunkFuel] at hc
  | succ fuel ih =>
    intro l c hc
    cases l with
    | nil => simp [chunkFuel] at hc
    | cons x xs =>
      rw [chunkFuel, List.mem_cons] at hc
      rcases hc with hc | hc
      · subst hc
        simp only [List.length_cons, List.length_take]
        omega
      · exact ih hc

theorem length_le_of_mem_chunk {α : Type} {b : Nat} (hb : 0 < b)
    {l c : List α} (hc : c ∈ chunk b l) : c.length ≤ b := by
  have := length_le_of_mem_chunkFuel hc
  omega

theorem mem_of_mem_chunkFuel {α : Type} {b : Nat} :
    ∀ {fuel : Nat} {l c : List α}, c ∈ chunkFuel b fuel l →
      ∀ a ∈ c, a ∈ l := by
  intro fuel
  induction fuel with
  | zero => intro l c hc; simp [chunkFuel] at hc
  | succ fuel ih =>
    intro l c hc a ha
    cases l with
    | nil => simp [chunkFuel] at hc
    | cons x xs =>
      rw [chunkFuel, List.mem_cons] at hc
      rcases hc with hc | hc
      · subst hc
        rcases List.mem_cons.mp ha with ha | ha
        · exact ha ▸ List.mem_cons_self x xs
        · exact List.mem_cons_of_mem x (List.mem_of_mem_take ha)
      · exact List.mem_cons_of_mem x (List.mem_of_mem_drop (ih hc a ha))

theorem mem_of_mem_chunk {α : Type} {b : Nat} {l c : List α}
    (hc : c ∈ chunk b l) {a : α} (ha : a ∈ c) : a ∈ l :=
  mem_of_mem_chunkFuel hc a ha

/-! ## Training loop lemmas -/

theorem foldl_trainBody_epoch (spe : Nat) :
    ∀ (l : List ℚ) (c : Nat) (ml : ℚ) (ps : List ℚ), l ≠ [] →
      c + l.length = spe →
      l.foldl (trainBody spe) ⟨ml, c, ps⟩ =
        ⟨0, 0, ps ++ [(ml + l.sum) / (spe : ℚ)]⟩ := by
  intro l
  induction l with
  | nil => intro c ml ps hne _; exact absurd rfl hne
  | cons x xs ih =>
    intro c ml ps _ hlen
    rw [List.foldl_cons]
    by_cases h : c + 1 = spe
    · have hxs : xs = [] := by
        rw [List.length_cons] at hlen
        exact List.length_eq_zero.mp (by omega)
      subst hxs
      simp only [trainBody, h, if_pos, List.foldl_nil]
      simp
    · have hxs : xs ≠ [] := by
        intro hx
        rw [hx, List.length_cons, List.length_nil] at hlen
        exact h hlen
      have hlen' : (c + 1) + xs.length = spe := by
        rw [List.length_cons] at hlen; omega
      rw [show trainBody spe ⟨ml, c, ps⟩ x = ⟨ml + x, c + 1, ps⟩ by
        simp [trainBody, h]]
      rw [ih (c + 1) (ml + x) ps hxs hlen']
      simp [add_assoc]

theorem foldl_trainBody_epochs (spe : Nat) (hspe : 0 < spe) :
    ∀ (ep : Nat) (ps : List ℚ) (losses : List ℚ), losses.length = ep * spe →
      losses.foldl (trainBody spe) ⟨0, 0, ps⟩ =
        ⟨0, 0, ps ++ (List.range ep).map
          (fun e => ((losses.drop (e * spe)).take spe).sum / (spe : ℚ))⟩ := by
  intro ep
  induction ep with
  | zero =>
    intro ps losses hlen
    rw [Nat.zero_mul] at hlen
    rw [List.length_eq_zero.mp hlen]
    simp
  | succ ep ih =>
    intro ps losses hlen
    have hlen_take : (losses.take spe).length = spe := by
      rw [List.length_take, hlen, Nat.succ_mul]; omega
    have htne : losses.take spe ≠ [] := by
      intro h
      rw [h, List.length_nil] at hlen_take
      omega
    have key : losses.foldl (trainBody spe) ⟨0, 0, ps⟩ =
        (losses.drop spe).foldl (trainBody spe)
          ⟨0, 0, ps ++ [(losses.take spe).sum / (spe : ℚ)]⟩ := by
      conv_lhs => rw [← List.take_append_drop spe losses]
      rw [List.foldl_append,
        foldl_trainBody_epoch spe (losses.take spe) 0 0 ps htne
          (by rw [hlen_take]; omega)]
      rw [zero_add]
    have hlen_drop : (losses.drop spe).length = ep * spe := by
      rw [List.length_drop, hlen, Nat.succ_mul]; omega
    rw [key, ih _ (losses.drop spe) hlen_drop]
    have hmap : (List.range ep).map
          (fun e => (((losses.drop spe).drop (e * spe)).take spe).sum / (spe : ℚ)) =
        (List.range ep).map
          (fun e => ((losses.drop ((e + 1) * spe)).take spe).sum / (spe : ℚ)) := by
      refine List.map_congr_left (fun e _ => ?_)
      rw [List.drop_drop, show spe + e * spe = (e + 1) * spe by ring]
    rw [hmap, List.range_succ_eq_map, List.map_cons, List.map_map]
    simp only [Nat.zero_mul, List.drop_zero, List.append_assoc,
      List.singleton_append]
    rfl

/-- C1: over a run delivering `ep * spe` training batches, the training
loop prints exactly one loss value per epoch; the value printed for
epoch `e` is the sum of the `train_step` losses of that epoch's `spe`
consecutive batches divided by `spe`; and at every epoch boundary (in
particular after each print) the accumulator `model_loss` and the
counter `current_batch` are back at zero. -/
theorem claim1_epoch_loss_printing (spe ep : Nat) (losses : List ℚ)
    (hspe : 0 < spe) (hlen : losses.length = ep * spe) :
    (trainLoop spe losses).printed.length = ep ∧
    (∀ e, e < ep → (trainLoop spe losses).printed[e]? =
      some (((losses.drop (e * spe)).take spe).sum / (spe : ℚ))) ∧
    (∀ e, e ≤ ep → (trainLoop spe (losses.take (e * spe))).model_loss = 0 ∧
      (trainLoop spe (losses.take (e * spe))).current_batch = 0) := by
  have hmain := foldl_trainBody_epochs spe hspe ep [] losses hlen
  rw [trainLoop, hmain]
  refine ⟨by simp, fun e he => ?_, fun e he => ?_⟩
  · simp [List.getElem?_map, List.getElem?_range, he]
  · have hlen' : (losses.take (e * spe)).length = e * spe := by
      rw [List.length_take, hlen]
      exact Nat.min_eq_left (Nat.mul_le_mul_right spe he)
    rw [trainLoop, foldl_trainBody_epochs spe hspe e [] _ hlen']
    exact ⟨rfl, rfl⟩

/-- Witness for C1 at `spe = 2`, `ep = 2`,
`losses = [1, 2, 3, 4]`: the printed values are `3/2` and `7/2`. -/
theorem claim1_witness :
    0 < 2 ∧ ([(1 : ℚ), 2, 3, 4].length = 2 * 2) ∧
      ((trainLoop 2 [(1 : ℚ), 2, 3, 4]).printed.length = 2 ∧
       (∀ e, e < 2 → (trainLoop 2 [(1 : ℚ), 2, 3, 4]).printed[e]? =
         some ((([(1 : ℚ), 2, 3, 4].drop (e * 2)).take 2).sum / (2 : ℚ))) ∧
       (∀ e, e ≤ 2 →
         (trainLoop 2 ([(1 : ℚ), 2, 3, 4].take (e * 2))).model_loss = 0 ∧
         (trainLoop 2 ([(1 : ℚ), 2, 3, 4].take (e * 2))).current_batch = 0)) :=
  ⟨by decide, by decide,
    claim1_epoch_loss_printing 2 2 [(1 : ℚ), 2, 3, 4] (by decide) (by decide)⟩

/-! ## Evaluation loop lemmas -/

theorem foldl_evalBody {W : Type} (mdl : W → Bool → SGraph → ℚ) :
    ∀ (batches : List (List SGraph)) (s : EvalState W),
      batches.foldl (evalBody mdl) s =
        ⟨s.weights,
         s.y_true ++ batches.map (fun bt => bt.map SGraph.label),
         s.y_pred ++ batches.map (fun bt => bt.map (mdl s.weights false))⟩ := by
  intro batches
  induction batches with
  | nil => intro s; simp
  | cons bt bts ih =>
    intro s
    rw [List.foldl_cons, ih]
    simp [evalBody, List.append_assoc]

/-- C2: the evaluation loop appends exactly one target block and one
prediction block per test batch, in iteration order; stacking the
blocks gives two arrays of the same number of rows in which row `i` of
`y_pred` is the model's prediction (with `training = false`) for the
very graph whose label is row `i` of `y_true`; and because the test
loader makes a single pass (`epochs = 1`), the stacked targets are
exactly the labels of the test set, each test graph contributing
exactly once. -/
theorem claim2_eval_collection_aligned {W : Type} (mdl : W → Bool → SGraph → ℚ)
    (w : W) (b : Nat) (ds : List SGraph) :
    (evalLoop mdl w (chunk b ds)).y_true =
      (chunk b ds).map (fun bt => bt.map SGraph.label) ∧
    (evalLoop mdl w (chunk b ds)).y_pred =
      (chunk b ds).map (fun bt => bt.map (mdl w false)) ∧
    (evalLoop mdl w (chunk b ds)).y_true.length = (chunk b ds).length ∧
    (evalLoop mdl w (chunk b ds)).y_pred.length = (chunk b ds).length ∧
    (evalLoop mdl w (chunk b ds)).y_true.flatten = ds.map SGraph.label ∧
    (evalLoop mdl w (chunk b ds)).y_pred.flatten = ds.map (mdl w false) ∧
    (evalLoop mdl w (chunk b ds)).y_true.flatten.length =
      (evalLoop mdl w (chunk b ds)).y_pred.flatten.length := by
  rw [evalLoop, foldl_evalBody]
  simp [← List.map_flatten, chunk_flatten]

/-- C8: the evaluation loop is read-only on the model: every forward
pass is made with `training = false` against the variables `w` the
training loop produced, and the variables after the whole loop are
exactly `w` — no gradient step occurs during evaluation. -/
theorem claim8_eval_does_not_modify_model {W : Type}
    (mdl : W → Bool → SGraph → ℚ) (w : W) (batches : List (List SGraph)) :
    (evalLoop mdl w batches).weights = w ∧
    (evalLoop mdl w batches).y_pred =
      batches.map (fun bt => bt.map (mdl w false)) := by
  rw [evalLoop, foldl_evalBody]
  exact ⟨rfl, by simp⟩

/-- C9: the validation split is dead data.  Two runs of the script that
agree on everything except the contents of the validation split produce
the same trained variables, the same per-epoch loss prints, and the
same final test loss and ROC-AUC. -/
theorem claim9_validation_split_unused {W : Type}
    (step : W → List SGraph → W × ℚ) (mdl : W → Bool → SGraph → ℚ)
    (lossFn : List ℚ → List ℚ → ℚ) (w0 : W) (tr te va va' : List SGraph) :
    runScript step mdl lossFn w0 tr va te =
      runScript step mdl lossFn w0 tr va' te := rfl

/-! ## Error propagation -/

/-- C4: the script handles no errors.  Whichever phase fails first —
dataset loading, model building, the training loop (graph convolution
and gradient application), or the evaluation loop with its metric — the
script's result is exactly that phase's error, uncaught, unretried and
unconverted. -/
theorem claim4_errors_propagate_unhandled {ε δ μ ρ : Type}
    (load : Except ε δ) (build : δ → Except ε μ) (train : μ → Except ε μ)
    (evaluate : μ → Except ε ρ) :
    (∀ e, load = .error e →
      scriptPhases load build train evaluate = .error e) ∧
    (∀ d e, load = .ok d → build d = .error e →
      scriptPhases load build train evaluate = .error e) ∧
    (∀ d m e, load = .ok d → build d = .ok m → train m = .error e →
      scriptPhases load build train evaluate = .error e) ∧
    (∀ d m m2 e, load = .ok d → build d = .ok m → train m = .ok m2 →
      evaluate m2 = .error e →
      scriptPhases load build train evaluate = .error e) := by
  refine ⟨?_, ?_, ?_, ?_⟩ <;> intros <;>
    simp_all [scriptPhases, Except.bind]

/-- Witness for C4: a dataset-loading failure with payload `7` comes out
of the whole script as that very error. -/
theorem claim4_witness :
    (Except.error 7 : Except Nat Nat) = Except.error 7 ∧
      scriptPhases (Except.error 7 : Except Nat Nat) Except.ok Except.ok
        (Except.ok : Nat → Except Nat Nat) = Except.error 7 :=
  ⟨rfl,
    (claim4_errors_propagate_unhandled (Except.error 7) Except.ok Except.ok
      Except.ok).1 7 rfl⟩

/-! ## ROC-AUC bounds -/

theorem countP_lt_add_countP_eq_le (p : ℚ) (l : List ℚ) :
    l.countP (fun q => decide (q < p)) + l.countP (fun q => decide (q = p)) ≤
      l.length := by
  induction l with
  | nil => simp
  | cons a t ih =>
    rw [List.countP_cons, List.countP_cons, List.length_cons]
    rcases eq_or_ne a p with h2 | h2
    · subst h2
      simp [lt_irrefl]
      omega
    · by_cases h1 : a < p <;> simp [h1, h2] <;> omega

theorem rocauc_num_le (pos neg : List ℚ) :
    2 * (pos.map (fun p => neg.countP (fun q => decide (q < p)))).sum +
        (pos.map (fun p => neg.countP (fun q => decide (q = p)))).sum ≤
      2 * pos.length * neg.length := by
  induction pos with
  | nil => simp
  | cons p ps ih =>
    simp only [List.map_cons, List.sum_cons, List.length_cons]
    have h := countP_lt_add_countP_eq_le p neg
    have hr : 2 * (ps.length + 1) * neg.length =
        2 * ps.length * neg.length + 2 * neg.length := by ring
    omega

theorem rocauc_mem_unit (yt yp : List ℚ) :
    0 ≤ rocauc yt yp ∧ rocauc yt yp ≤ 1 := by
  unfold rocauc
  constructor
  · exact div_nonneg (Nat.cast_nonneg _) (Nat.cast_nonneg _)
  · refine div_le_one_of_le₀ ?_ (Nat.cast_nonneg _)
    exact_mod_cast rocauc_num_le _ _

/-- C6: the ROC-AUC score the script finally prints lies in the closed
interval `[0, 1]`, whatever the datasets, the model and the training
run were. -/
theorem claim6_rocauc_in_unit_interval {W : Type}
    (step : W → List SGraph → W × ℚ) (mdl : W → Bool → SGraph → ℚ)
    (lossFn : List ℚ → List ℚ → ℚ) (w0 : W) (tr va te : List SGraph) :
    0 ≤ (runScript step mdl lossFn w0 tr va te).2.testAuc ∧
      (runScript step mdl lossFn w0 tr va te).2.testAuc ≤ 1 :=
  rocauc_mem_unit _ _

/-! ## Trace lemmas: the phases run in a fixed linear order -/

theorem scriptTrace_eq_parts (ep spe nte : Nat) (avg : Nat → ℚ) (tl auc : ℚ) :
    scriptTrace ep spe nte avg tl auc =
      (configEvents ++ [.setParam .datasetName, .loadDataset dataset_name,
        .splitData, .buildModel, .printStatus ("Fitting model")]) ++
      (trainEvents ep spe avg ++
        (Event.printStatus ("Testing model") :: (evalEvents nte ++
          [Event.printFinal tl auc]))) := by
  simp [scriptTrace, List.append_assoc]

theorem phaseTag_of_mem_trainEvents {ep spe : Nat} {avg : Nat → ℚ} :
    ∀ e ∈ trainEvents ep spe avg, phaseTag e = 3 := by
  intro e he
  rw [trainEvents, List.mem_flatten] at he
  rcases he with ⟨l, hl, hel⟩
  rcases List.mem_map.mp hl with ⟨k, _, rfl⟩
  rcases List.mem_append.mp hel with h | h
  · rcases List.mem_map.mp h with ⟨s, _, rfl⟩
    rfl
  · rw [List.mem_singleton.mp h]
    rfl

theorem phaseTag_of_mem_evalEvents {nte : Nat} :
    ∀ e ∈ evalEvents nte, phaseTag e = 4 := by
  intro e he
  rcases List.mem_map.mp he with ⟨k, _, rfl⟩
  rfl

/-- Monotone concatenation: a sorted low part followed by a sorted high
part is sorted. -/
theorem pairwise_tag_append {l₁ l₂ : List Event} {k : Nat}
    (h₁ : l₁.Pairwise (fun a b => phaseTag a ≤ phaseTag b))
    (h₂ : l₂.Pairwise (fun a b => phaseTag a ≤ phaseTag b))
    (hb₁ : ∀ a ∈ l₁, phaseTag a ≤ k) (hb₂ : ∀ b ∈ l₂, k ≤ phaseTag b) :
    (l₁ ++ l₂).Pairwise (fun a b => phaseTag a ≤ phaseTag b) :=
  List.pairwise_append.mpr
    ⟨h₁, h₂, fun a ha b hb => (hb₁ a ha).trans (hb₂ b hb)⟩

theorem sorted_prefixSeg :
    (configEvents ++ [Event.setParam .datasetName,
      .loadDataset dataset_name, .splitData, .buildModel,
      .printStatus ("Fitting model")]).Pairwise
      (fun a b => phaseTag a ≤ phaseTag b) := by decide

theorem tag_le_three_of_mem_prefixSeg :
    ∀ a ∈ configEvents ++ [Event.setParam .datasetName,
      .loadDataset dataset_name, .splitData, .buildModel,
      .printStatus ("Fitting model")], phaseTag a ≤ 3 := by decide

theorem tag_ge_four_of_mem_suffix (nte : Nat) (tl auc : ℚ) :
    ∀ b ∈ Event.printStatus ("Testing model") :: (evalEvents nte ++
      [Event.printFinal tl auc]), 4 ≤ phaseTag b := by
  intro b hb
  rcases List.mem_cons.mp hb with h | h
  · subst h; decide
  · rcases List.mem_append.mp h with h | h
    · rw [phaseTag_of_mem_evalEvents b h]
    · rw [List.mem_singleton.mp h]
      exact le_rfl

theorem sorted_suffix (nte : Nat) (tl auc : ℚ) :
    (Event.printStatus ("Testing model") :: (evalEvents nte ++
      [Event.printFinal tl auc])).Pairwise
      (fun a b => phaseTag a ≤ phaseTag b) := by
  rw [List.pairwise_cons]
  constructor
  · intro b hb
    have h4 := tag_ge_four_of_mem_suffix nte tl auc b (List.mem_cons_of_mem _ hb)
    have h5 : phaseTag (Event.printStatus ("Testing model")) = 4 := by decide
    omega
  · refine pairwise_tag_append (k := 4)
      (List.pairwise_of_forall_mem_list fun a ha b hb => ?_)
      (List.pairwise_singleton _ _) (fun a ha => ?_) (fun b hb => ?_)
    · rw [phaseTag_of_mem_evalEvents a ha, phaseTag_of_mem_evalEvents b hb]
    · rw [phaseTag_of_mem_evalEvents a ha]
    · rw [List.mem_singleton.mp hb]
      exact le_rfl

/-- The whole trace is sorted by phase: the script never returns to an
earlier phase. -/
theorem scriptTrace_phase_sorted (ep spe nte : Nat) (avg : Nat → ℚ)
    (tl auc : ℚ) :
    (scriptTrace ep spe nte avg tl auc).Pairwise
      (fun a b => phaseTag a ≤ phaseTag b) := by
  rw [scriptTrace_eq_parts]
  refine pairwise_tag_append (k := 3) sorted_prefixSeg ?_
    tag_le_three_of_mem_prefixSeg ?_
  · refine pairwise_tag_append (k := 4)
      (List.pairwise_of_forall_mem_list fun a ha b hb => ?_)
      (sorted_suffix nte tl auc) (fun a ha => ?_)
      (tag_ge_four_of_mem_suffix nte tl auc)
    · rw [phaseTag_of_mem_trainEvents a ha, phaseTag_of_mem_trainEvents b hb]
    · rw [phaseTag_of_mem_trainEvents a ha]
      omega
  · intro b hb
    rcases List.mem_append.mp hb with h | h
    · rw [phaseTag_of_mem_trainEvents b h]
    · have := tag_ge_four_of_mem_suffix nte tl auc b h
      omega

/-- In a phase-sorted trace, an event of a strictly earlier phase sits at
a strictly smaller index. -/
theorem index_lt_of_tag_lt {l : List Event}
    (hs : l.Pairwise (fun a b => phaseTag a ≤ phaseTag b))
    {i j : Nat} {a b : Event} (ha : l[i]? = some a) (hb : l[j]? = some b)
    (hab : phaseTag a < phaseTag b) : i < j := by
  rcases List.getElem?_eq_some.mp ha with ⟨hi, rfl⟩
  rcases List.getElem?_eq_some.mp hb with ⟨hj, rfl⟩
  rcases lt_trichotomy i j with h | h | h
  · exact h
  · subst h
    exact absurd hab (lt_irrefl _)
  · have := (List.pairwise_iff_getElem.mp hs) j i hj hi h
    omega

theorem phaseTag_of_isTrainStep {e : Event} (h : isTrainStep e = true) :
    phaseTag e = 3 := by
  cases e <;> simp_all [isTrainStep, phaseTag]

theorem phaseTag_of_isEvalForward {e : Event} (h : isEvalForward e = true) :
    phaseTag e = 4 := by
  cases e <;> simp_all [isEvalForward, phaseTag]

theorem countP_isTrainStep_trainEvents (ep spe : Nat) (avg : Nat → ℚ) :
    (trainEvents ep spe avg).countP isTrainStep = ep * spe := by
  rw [trainEvents, List.countP_flatten, List.map_map]
  have hmap : (List.range ep).map
        (List.countP isTrainStep ∘ fun e =>
          (List.range spe).map (fun s => Event.trainStepCall (e * spe + s)) ++
            [Event.printEpochLoss (avg e)]) =
      (List.range ep).map (fun _ => spe) := by
    refine List.map_congr_left (fun k _ => ?_)
    simp only [Function.comp, List.countP_append, List.countP_map]
    have h1 : (isTrainStep ∘ fun s => Event.trainStepCall (k * spe + s)) =
        fun _ => true := by
      funext s; rfl
    rw [h1, List.countP_true, List.length_range]
    rfl
  rw [hmap, List.map_const', List.sum_replicate, List.length_range,
    smul_eq_mul]

theorem countP_isEvalForward_evalEvents (nte : Nat) :
    (evalEvents nte).countP isEvalForward = nte := by
  rw [evalEvents, List.countP_map]
  have : (isEvalForward ∘ Event.evalForward) = fun _ => true := by
    funext k; rfl
  rw [this, List.countP_true, List.length_range]

theorem countP_isTrainStep_scriptTrace (ep spe nte : Nat) (avg : Nat → ℚ)
    (tl auc : ℚ) :
    (scriptTrace ep spe nte avg tl auc).countP isTrainStep = ep * spe := by
  rw [scriptTrace_eq_parts]
  simp [List.countP_append, List.countP_cons,
    countP_isTrainStep_trainEvents, evalEvents, List.countP_map,
    isTrainStep, List.countP_eq_zero, configEvents]

theorem countP_isEvalForward_scriptTrace (ep spe nte : Nat) (avg : Nat → ℚ)
    (tl auc : ℚ) :
    (scriptTrace ep spe nte avg tl auc).countP isEvalForward = nte := by
  rw [scriptTrace_eq_parts]
  simp only [List.countP_append, List.countP_cons,
    countP_isEvalForward_evalEvents]
  have h1 : (trainEvents ep spe avg).countP isEvalForward = 0 := by
    rw [List.countP_eq_zero]
    intro a ha
    have := phaseTag_of_mem_trainEvents a ha
    intro hEv
    rw [phaseTag_of_isEvalForward hEv] at this
    omega
  rw [h1]
  simp [configEvents, isEvalForward]

/-- C3: the script runs its five phases in a fixed linear order (the
trace is sorted by phase number: configure, load/split, build, train,
evaluate), it performs exactly `epochs * steps_per_epoch` calls of
`train_step`, and no evaluation forward pass occurs at an earlier
position of the trace than any training batch. -/
theorem claim3_phase_order (ep spe nte : Nat) (avg : Nat → ℚ) (tl auc : ℚ) :
    (scriptTrace ep spe nte avg tl auc).Pairwise
      (fun a b => phaseTag a ≤ phaseTag b) ∧
    (scriptTrace ep spe nte avg tl auc).countP isTrainStep = ep * spe ∧
    (∀ (i j : Nat) (a b : Event),
      (scriptTrace ep spe nte avg tl auc)[i]? = some a →
      isTrainStep a = true →
      (scriptTrace ep spe nte avg tl auc)[j]? = some b →
      isEvalForward b = true → i < j) := by
  refine ⟨scriptTrace_phase_sorted ep spe nte avg tl auc,
    countP_isTrainStep_scriptTrace ep spe nte avg tl auc,
    fun i j a b ha hta hb htb => ?_⟩
  have hab : phaseTag a < phaseTag b := by
    rw [phaseTag_of_isTrainStep hta, phaseTag_of_isEvalForward htb]
    omega
  exact index_lt_of_tag_lt (scriptTrace_phase_sorted ep spe nte avg tl auc)
    ha hb hab

/-- Witness for C3 with one epoch, one step per epoch, one test batch:
the single `train_step` call sits at trace index 8, the single
evaluation forward pass at index 11, and indeed 8 < 11. -/
theorem claim3_witness :
    (scriptTrace 1 1 1 (fun _ => 0) 0 0)[8]? =
        some (Event.trainStepCall 0) ∧
      (scriptTrace 1 1 1 (fun _ => 0) 0 0)[11]? =
        some (Event.evalForward 0) ∧ 8 < 11 := by
  refine ⟨rfl, rfl, ?_⟩
  exact (claim3_phase_order 1 1 1 (fun _ => 0) 0 0).2.2 8 11
    (Event.trainStepCall 0) (Event.evalForward 0) rfl rfl rfl rfl

theorem phaseTag_of_isSetParam {e : Event} (h : isSetParam e = true) :
    phaseTag e = 0 := by
  cases e <;> simp_all [isSetParam, phaseTag]

theorem one_le_phaseTag_of_not_setParam {e : Event}
    (h : isSetParam e = false) : 1 ≤ phaseTag e := by
  cases e with
  | setParam p => simp [isSetParam] at h
  | loadDataset name => exact le_rfl
  | splitData => decide
  | buildModel => decide
  | printStatus m =>
    show 1 ≤ if m = "Fitting model" then 3 else 4
    split <;> omega
  | trainStepCall i => show (1 : Nat) ≤ 3; decide
  | printEpochLoss v => show (1 : Nat) ≤ 3; decide
  | evalForward i => show (1 : Nat) ≤ 4; decide
  | printFinal t a => show (1 : Nat) ≤ 4; decide
  | fileOperation p => show (1 : Nat) ≤ 5; decide

/-- C5: the script's behaviour is configured by exactly the dataset
identifier `'ogbg-molhiv'` and the three numeric hyperparameters
`learning_rate = 1e-3`, `epochs = 10`, `batch_size = 32`, all bound as
module-level constants; every parameter assignment sits at a strictly
earlier trace position than every other operation of the script. -/
theorem claim5_parameters (ep spe nte : Nat) (avg : Nat → ℚ) (tl auc : ℚ) :
    learning_rate = 1 / 1000 ∧ epochs = 10 ∧ batch_size = 32 ∧
    dataset_name = "ogbg-molhiv" ∧
    (∀ (i j : Nat) (a b : Event),
      (scriptTrace ep spe nte avg tl auc)[i]? = some a →
      isSetParam a = true →
      (scriptTrace ep spe nte avg tl auc)[j]? = some b →
      isSetParam b = false → i < j) := by
  refine ⟨rfl, rfl, rfl, rfl, fun i j a b ha hsa hb hsb => ?_⟩
  have hab : phaseTag a < phaseTag b := by
    rw [phaseTag_of_isSetParam hsa]
    exact one_le_phaseTag_of_not_setParam hsb
  exact index_lt_of_tag_lt (scriptTrace_phase_sorted ep spe nte avg tl auc)
    ha hb hab

/-- Witness for C5: the `learning_rate` assignment sits at trace index 0,
the dataset-loading call at index 4, and indeed 0 < 4. -/
theorem claim5_witness :
    (scriptTrace 1 1 1 (fun _ => 0) 0 0)[0]? =
        some (Event.setParam ParamName.lr) ∧
      (scriptTrace 1 1 1 (fun _ => 0) 0 0)[4]? =
        some (Event.loadDataset ("ogbg-molhiv")) ∧ 0 < 4 := by
  refine ⟨rfl, rfl, ?_⟩
  exact (claim5_parameters 1 1 1 (fun _ => 0) 0 0).2.2.2.2 0 4
    (Event.setParam ParamName.lr) (Event.loadDataset ("ogbg-molhiv"))
    rfl rfl rfl rfl

/-! ## Outputs and file operations -/

theorem mem_trainEvents_cases {ep spe : Nat} {avg : Nat → ℚ} {e : Event}
    (he : e ∈ trainEvents ep spe avg) :
    (∃ i, e = Event.trainStepCall i) ∨ ∃ v, e = Event.printEpochLoss v := by
  rw [trainEvents, List.mem_flatten] at he
  rcases he with ⟨l, hl, hel⟩
  rcases List.mem_map.mp hl with ⟨k, _, rfl⟩
  rcases List.mem_append.mp hel with h | h
  · rcases List.mem_map.mp h with ⟨s, _, rfl⟩
    exact Or.inl ⟨k * spe + s, rfl⟩
  · exact Or.inr ⟨avg k, List.mem_singleton.mp h⟩

theorem mem_evalEvents_cases {nte : Nat} {e : Event}
    (he : e ∈ evalEvents nte) : ∃ i, e = Event.evalForward i := by
  rcases List.mem_map.mp he with ⟨k, _, rfl⟩
  exact ⟨k, rfl⟩

theorem mem_scriptTrace_cases {ep spe nte : Nat} {avg : Nat → ℚ}
    {tl auc : ℚ} {e : Event}
    (he : e ∈ scriptTrace ep spe nte avg tl auc) :
    e ∈ configEvents ∨ e = Event.setParam ParamName.datasetName ∨
    e = Event.loadDataset dataset_name ∨ e = Event.splitData ∨
    e = Event.buildModel ∨ e = Event.printStatus ("Fitting model") ∨
    e ∈ trainEvents ep spe avg ∨ e = Event.printStatus ("Testing model") ∨
    e ∈ evalEvents nte ∨ e = Event.printFinal tl auc := by
  rw [scriptTrace_eq_parts] at he
  simp only [List.mem_append, List.mem_cons, List.mem_singleton,
    List.not_mem_nil, or_false] at he
  tauto

theorem isFileOp_false_of_mem_scriptTrace {ep spe nte : Nat}
    {avg : Nat → ℚ} {tl auc : ℚ} {e : Event}
    (he : e ∈ scriptTrace ep spe nte avg tl auc) : isFileOp e = false := by
  rcases mem_scriptTrace_cases he with h|h|h|h|h|h|h|h|h|h
  · simp only [configEvents, List.mem_cons, List.mem_singleton,
      List.not_mem_nil, or_false] at h
    rcases h with h|h|h <;> subst h <;> rfl
  · subst h; rfl
  · subst h; rfl
  · subst h; rfl
  · subst h; rfl
  · subst h; rfl
  · rcases mem_trainEvents_cases h with ⟨i, rfl⟩ | ⟨v, rfl⟩ <;> rfl
  · subst h; rfl
  · rcases mem_evalEvents_cases h with ⟨i, rfl⟩; rfl
  · subst h; rfl

theorem output_cases_of_mem_scriptTrace {ep spe nte : Nat}
    {avg : Nat → ℚ} {tl auc : ℚ} {e : Event}
    (he : e ∈ scriptTrace ep spe nte avg tl auc)
    (ho : isOutput e = true) :
    e = Event.printStatus ("Fitting model") ∨
    e = Event.printStatus ("Testing model") ∨
    isEpochLossPrint e = true ∨ isFinalPrint e = true := by
  rcases mem_scriptTrace_cases he with h|h|h|h|h|h|h|h|h|h
  · simp only [configEvents, List.mem_cons, List.mem_singleton,
      List.not_mem_nil, or_false] at h
    rcases h with h|h|h <;> subst h <;> simp [isOutput] at ho
  · subst h; simp [isOutput] at ho
  · subst h; simp [isOutput] at ho
  · subst h; simp [isOutput] at ho
  · subst h; simp [isOutput] at ho
  · exact Or.inl h
  · rcases mem_trainEvents_cases h with ⟨i, rfl⟩ | ⟨v, rfl⟩
    · simp [isOutput] at ho
    · exact Or.inr (Or.inr (Or.inl rfl))
  · exact Or.inr (Or.inl h)
  · rcases mem_evalEvents_cases h with ⟨i, rfl⟩
    simp [isOutput] at ho
  · subst h
    exact Or.inr (Or.inr (Or.inr rfl))

/-- C10 counterexample: with one epoch, one step per epoch and one test
batch, the trace contains the printed status line `Fitting model`, an
output that is neither a per-epoch training-loss print nor the final
test-loss/ROC-AUC print — so "its only outputs are the printed
per-epoch losses and the final printed test loss and ROC-AUC" fails as
stated. -/
theorem claim10_counterexample :
    ¬ ((∀ e ∈ scriptTrace 1 1 1 (fun _ => 0) 0 0, isFileOp e = false) ∧
      (∀ e ∈ scriptTrace 1 1 1 (fun _ => 0) 0 0, isOutput e = true →
        isEpochLossPrint e = true ∨ isFinalPrint e = true)) := by
  rintro ⟨-, h⟩
  have hmem : Event.printStatus ("Fitting model") ∈
      scriptTrace 1 1 1 (fun _ => 0) 0 0 := by
    rw [scriptTrace_eq_parts]
    simp
  rcases h _ hmem rfl with h1 | h1 <;> simp [isEpochLossPrint, isFinalPrint] at h1

/-- C10 (amended): the script performs no file operation — no event of
its trace opens, writes, or deletes a file — and its only outputs are
printed text: the two fixed status lines `Fitting model` and
`Testing model`, the per-epoch training losses, and the final test
loss / ROC-AUC line.  Any on-disk caching happens inside the dataset
library, outside the script's own trace. -/
theorem claim10_no_files_only_prints (ep spe nte : Nat) (avg : Nat → ℚ)
    (tl auc : ℚ) :
    (∀ e ∈ scriptTrace ep spe nte avg tl auc, isFileOp e = false) ∧
    (∀ e ∈ scriptTrace ep spe nte avg tl auc, isOutput e = true →
      e = Event.printStatus ("Fitting model") ∨
      e = Event.printStatus ("Testing model") ∨
      isEpochLossPrint e = true ∨ isFinalPrint e = true) :=
  ⟨fun _ he => isFileOp_false_of_mem_scriptTrace he,
   fun _ he ho => output_cases_of_mem_scriptTrace he ho⟩

/-- Witness for the amended C10: the `train_step` call of the one-epoch
trace is in the trace and is no file operation. -/
theorem claim10_witness :
    Event.trainStepCall 0 ∈ scriptTrace 1 1 1 (fun _ => 0) 0 0 ∧
      isFileOp (Event.trainStepCall 0) = false := by
  have hmem : Event.trainStepCall 0 ∈ scriptTrace 1 1 1 (fun _ => 0) 0 0 := by
    rw [scriptTrace_eq_parts]
    simp [trainEvents]
  exact ⟨hmem,
    (claim10_no_files_only_prints 1 1 1 (fun _ => 0) 0 0).1 _ hmem⟩

/-! ## Disjoint-union batches: block-diagonality and the index vector -/

theorem mem_chunk_of_mem_loaderBatches {α : Type} {b ep : Nat}
    {ds : List α} {bt : List α} (h : bt ∈ loaderBatches b ep ds) :
    bt ∈ chunk b ds := by
  rw [loaderBatches, List.mem_flatten] at h
  rcases h with ⟨l, hl, hbl⟩
  rwa [List.eq_of_mem_replicate hl] at hbl

theorem indexVec_blockdiag :
    ∀ (gs : List SGraph), (∀ g ∈ gs, g.WF) →
      ∀ p ∈ unionEdges gs, ∃ k, (indexVec gs)[p.1]? = some k ∧
        (indexVec gs)[p.2]? = some k ∧
        ∃ g, gs[k]? = some g ∧
          (p.1 - offset gs k, p.2 - offset gs k) ∈ g.edges := by
  intro gs
  induction gs with
  | nil => intro _ p hp; simp [unionEdges] at hp
  | cons g gs ih =>
    intro hwf p hp
    rw [unionEdges, List.mem_append] at hp
    rcases hp with hp | hp
    · have hg := hwf g (List.mem_cons_self g gs) p hp
      refine ⟨0, ?_, ?_, g, by simp, ?_⟩
      · show (List.replicate g.n 0 ++ (indexVec gs).map (· + 1))[p.1]? =
          some 0
        rw [List.getElem?_append_left
          (by rw [List.length_replicate]; exact hg.1)]
        rw [List.getElem?_replicate, if_pos hg.1]
      · show (List.replicate g.n 0 ++ (indexVec gs).map (· + 1))[p.2]? =
          some 0
        rw [List.getElem?_append_left
          (by rw [List.length_replicate]; exact hg.2)]
        rw [List.getElem?_replicate, if_pos hg.2]
      · show (p.1 - 0, p.2 - 0) ∈ g.edges
        simpa using hp
    · rcases List.mem_map.mp hp with ⟨q, hq, rfl⟩
      have hwf' : ∀ g' ∈ gs, g'.WF :=
        fun g' h' => hwf g' (List.mem_cons_of_mem g h')
      rcases ih hwf' q hq with ⟨k, hk1, hk2, g', hg', hedge⟩
      refine ⟨k + 1, ?_, ?_, g', ?_, ?_⟩
      · show (List.replicate g.n 0 ++
          (indexVec gs).map (· + 1))[q.1 + g.n]? = some (k + 1)
        rw [List.getElem?_append_right
          (by rw [List.length_replicate]; omega)]
        rw [List.length_replicate,
          show q.1 + g.n - g.n = q.1 by omega, List.getElem?_map, hk1]
        rfl
      · show (List.replicate g.n 0 ++
          (indexVec gs).map (· + 1))[q.2 + g.n]? = some (k + 1)
        rw [List.getElem?_append_right
          (by rw [List.length_replicate]; omega)]
        rw [List.length_replicate,
          show q.2 + g.n - g.n = q.2 by omega, List.getElem?_map, hk2]
        rfl
      · rw [List.getElem?_cons_succ]
        exact hg'
      · show (q.1 + g.n - (g.n + offset gs k),
          q.2 + g.n - (g.n + offset gs k)) ∈ g'.edges
        rw [show q.1 + g.n - (g.n + offset gs k) = q.1 - offset gs k by omega,
          show q.2 + g.n - (g.n + offset gs k) = q.2 - offset gs k by omega]
        exact hedge

theorem indexVec_assigns :
    ∀ (gs : List SGraph) (k : Nat) (g : SGraph), gs[k]? = some g →
      ∀ m, m < g.n → (indexVec gs)[offset gs k + m]? = some k := by
  intro gs
  induction gs with
  | nil => intro k g hk; simp at hk
  | cons g' gs ih =>
    intro k g hk m hm
    cases k with
    | zero =>
      have hgg : g' = g := by simpa using hk
      subst hgg
      show (List.replicate g'.n 0 ++ (indexVec gs).map (· + 1))[0 + m]? =
        some 0
      rw [Nat.zero_add,
        List.getElem?_append_left (by rw [List.length_replicate]; exact hm)]
      rw [List.getElem?_replicate, if_pos hm]
    | succ k =>
      rw [List.getElem?_cons_succ] at hk
      show (List.replicate g'.n 0 ++
        (indexVec gs).map (· + 1))[g'.n + offset gs k + m]? = some (k + 1)
      rw [List.getElem?_append_right
        (by rw [List.length_replicate]; omega)]
      rw [List.length_replicate,
        show g'.n + offset gs k + m - g'.n = offset gs k + m by omega,
        List.getElem?_map, ih k g hk m hm]
      rfl

/-- C7: every batch delivered to the training loop (across all epochs)
or to the evaluation loop consists of at most `batch_size` labeled
graphs; the adjacency of the batch's disjoint union is block-diagonal —
every union edge joins two nodes that the index vector `I` assigns to
one and the same constituent graph, and is (after removing that graph's
node offset) an edge of that very graph; and the index vector assigns
each node of the union to the graph it came from. -/
theorem claim7_disjoint_union_batches (b ep : Nat) (hb : 0 < b)
    (ds_tr ds_te : List SGraph) (hwf_tr : ∀ g ∈ ds_tr, g.WF)
    (hwf_te : ∀ g ∈ ds_te, g.WF) :
    ∀ bt : List SGraph,
      bt ∈ loaderBatches b ep ds_tr ∨ bt ∈ chunk b ds_te →
      bt.length ≤ b ∧
      (∀ p ∈ unionEdges bt, ∃ k, (indexVec bt)[p.1]? = some k ∧
        (indexVec bt)[p.2]? = some k ∧
        ∃ g, bt[k]? = some g ∧
          (p.1 - offset bt k, p.2 - offset bt k) ∈ g.edges) ∧
      (∀ (k : Nat) (g : SGraph), bt[k]? = some g → ∀ m, m < g.n →
        (indexVec bt)[offset bt k + m]? = some k) := by
  intro bt hbt
  have hchunk : bt ∈ chunk b ds_tr ∨ bt ∈ chunk b ds_te := by
    rcases hbt with h | h
    · exact Or.inl (mem_chunk_of_mem_loaderBatches h)
    · exact Or.inr h
  have hwf : ∀ g ∈ bt, g.WF := by
    rcases hchunk with h | h
    · exact fun g hg => hwf_tr g (mem_of_mem_chunk h hg)
    · exact fun g hg => hwf_te g (mem_of_mem_chunk h hg)
  have hlen : bt.length ≤ b := by
    rcases hchunk with h | h
    · exact length_le_of_mem_chunk hb h
    · exact length_le_of_mem_chunk hb h
  exact ⟨hlen, indexVec_blockdiag bt hwf, indexVec_assigns bt⟩

/-- Witness for C7: three small well-formed graphs batched with
`batch_size = 2` over one epoch. -/
theorem claim7_witness :
    0 < 2 ∧
    (∀ g ∈ [SGraph.mk 2 [(0, 1)] 1, SGraph.mk 1 [] 0,
      SGraph.mk 3 [(0, 2)] 1], g.WF) ∧
    (∀ g ∈ [SGraph.mk 1 [] 0], g.WF) ∧
    (∀ bt : List SGraph,
      bt ∈ loaderBatches 2 1 [SGraph.mk 2 [(0, 1)] 1, SGraph.mk 1 [] 0,
        SGraph.mk 3 [(0, 2)] 1] ∨
        bt ∈ chunk 2 [SGraph.mk 1 [] 0] →
      bt.length ≤ 2 ∧
      (∀ p ∈ unionEdges bt, ∃ k, (indexVec bt)[p.1]? = some k ∧
        (indexVec bt)[p.2]? = some k ∧
        ∃ g, bt[k]? = some g ∧
          (p.1 - offset bt k, p.2 - offset bt k) ∈ g.edges) ∧
      (∀ (k : Nat) (g : SGraph), bt[k]? = some g → ∀ m, m < g.n →
        (indexVec bt)[offset bt k + m]? = some k)) :=
  ⟨by decide, by decide, by decide,
    claim7_disjoint_union_batches 2 1 (by decide) _ _ (by decide) (by decide)⟩

/-! ## The loader contract behind the training loop's hypothesis -/

theorem length_loaderBatches {α : Type} (b ep : Nat) (ds : List α) :
    (loaderBatches b ep ds).length = ep * steps_per_epoch b ds := by
  rw [loaderBatches, List.length_flatten, List.map_replicate,
    List.sum_replicate, smul_eq_mul]
  rfl

theorem length_fitModel_losses {W β : Type} (step : W → β → W × ℚ) :
    ∀ (batches : List β) (w : W) (acc : List ℚ),
      (batches.foldl (fun s b => ((step s.1 b).1, s.2 ++ [(step s.1 b).2]))
        (w, acc)).2.length = acc.length + batches.length := by
  intro batches
  induction batches with
  | nil => intro w acc; simp
  | cons b bs ih =>
    intro w acc
    rw [List.foldl_cons, ih]
    simp only [List.length_append, List.length_cons, List.length_nil]
    omega

end OgbgMolHiv
